import Mathlib

/-!
Verification of the ALPHA-g trigger-simulation core: the MLU prompt-window /
wait-gate state machine, the lookup-table text format, and the admission
pipeline (drift veto, scaledown, dead time) of the trigger World.

The definitions below are a shallow embedding of the Rust sources
(src/src/mlu.rs and src/src/lib.rs).  The timestamp type T is instantiated
at Int (the code is generic over any totally ordered, additively combinable
type).  Strings are modelled as List Char.
-/

set_option maxHeartbeats 1000000

/-- Size of the dense lookup table: the full 16-bit pattern space
(const TABLE_SIZE: usize = 2usize.pow(16) in mlu.rs). -/
def TABLE_SIZE : Nat := 2 ^ 16

instance : NeZero TABLE_SIZE := ⟨by decide⟩

/-- Modelled from the spec: WirePattern is a 16-bit mask, one bit per
instrumented wire, combinable via bitwise OR, equality bit-exact.
(The gen module that declares it is not under src/.) -/
abbrev WirePattern := Fin TABLE_SIZE

/-- Bitwise OR of two wire patterns (set union of fired wires). -/
def WirePattern.or (a b : WirePattern) : WirePattern :=
  ⟨a.val ||| b.val, Nat.bitwise_lt a.isLt b.isLt⟩

/-- Modelled from the spec: closed enumeration of event provenance,
carried for observability only (gen module not under src/). -/
inductive Source where
  | cosmic : Source
  | pbar : Source
  | afterpulse : Source
  | noise : Source
deriving DecidableEq

/-- Modelled from the spec: a WireEvent is one discriminator hit with a
source, a timestamp and a pattern of fired wires (gen module not under
src/; field names as used by mlu.rs and lib.rs). -/
structure WireEvent where
  source : Source
  time : Int
  wire_pattern : WirePattern
deriving DecidableEq

/-- Modelled from the spec: PositiveDuration wraps a duration that is
strictly greater than zero; construction fails otherwise, so every value
of this type carries the positivity invariant (gen module not under src/). -/
structure Positive where
  inner : Int
  pos : 0 < inner

/-- A candidate decision instant produced by the MLU (TrgSignal in mlu.rs). -/
structure TrgSignal where
  time : Int
deriving DecidableEq

/-! ## Lookup table and its text format (mlu.rs) -/

/-- Set of wire patterns, backed by a dense boolean table indexed by the
full 16-bit space ([bool; TABLE_SIZE] in mlu.rs). -/
structure LookupTable where
  inner : Fin TABLE_SIZE → Bool

/-- LookupTable::new: empty table. -/
def LookupTable.new : LookupTable := ⟨fun _ => false⟩

/-- LookupTable::contains: O(1) membership test. -/
def LookupTable.contains (t : LookupTable) (p : WirePattern) : Bool := t.inner p

/-- LookupTable::insert: sets the entry; also returns whether the pattern
was newly inserted. -/
def LookupTable.insert (t : LookupTable) (p : WirePattern) : LookupTable × Bool :=
  (⟨fun i => if i = p then true else t.inner i⟩, !t.inner p)

/-- Decimal digit characters of a natural number, most significant first
(the rendering of the integer Display format used in bits_string and
clusters_string).  The fuel argument is an upper bound on the number of
digits; decChars supplies n + 1 which always suffices. -/
def decCharsAux : Nat → Nat → List Char → List Char
  | 0, _, acc => acc
  | fuel + 1, n, acc =>
    if n < 10 then Char.ofNat (48 + n) :: acc
    else decCharsAux fuel (n / 10) (Char.ofNat (48 + n % 10) :: acc)

/-- Decimal rendering of a natural number. -/
def decChars (n : Nat) : List Char := decCharsAux (n + 1) n []

/-- Lowercase hex digit character for a value below 16 (the x format). -/
def hexChar (d : Nat) : Char :=
  if d < 10 then Char.ofNat (48 + d) else Char.ofNat (87 + d)

/-- The four lowercase hex digits of a 16-bit value, most significant
first (the 04x format of the table lines). -/
def hex4 (n : Nat) : List Char :=
  [hexChar (n / 4096 % 16), hexChar (n / 256 % 16), hexChar (n / 16 % 16), hexChar (n % 16)]

/-- Reverse of the low k bits of n: bit j of the result is bit (k - 1 - j)
of n.  revBitsAux 16 embeds u16::reverse_bits. -/
def revBitsAux : Nat → Nat → Nat
  | 0, _ => 0
  | k + 1, n => Nat.bit (n.testBit k) (revBitsAux k n)

/-- u16::reverse_bits: reverses the order of the 16 bits. -/
def reverse_bits (n : Nat) : Nat := revBitsAux 16 n

/-- The 016b format: 16 binary digit characters, most significant bit
(bit 15) first. -/
def bin16 (m : Nat) : List Char :=
  (List.range 16).map (fun i => if m.testBit (15 - i) then '1' else '0')

/-- bit_pattern_string in mlu.rs: format 016b of n.reverse_bits(), then
replace every digit 0 by a dot and every digit 1 by an X (on a string of
binary digits the two replaces are a character-wise map). -/
def bit_pattern_string (n : Nat) : List Char :=
  (bin16 (reverse_bits n)).map (fun c => if c = '1' then 'X' else '.')

/-- u16::count_ones on the 16-bit value n. -/
def count_ones (n : Nat) : Nat := (List.range 16).countP (fun i => n.testBit i)

/-- bits_string in mlu.rs: the Hamming weight followed by the word bits. -/
def bits_string (n : Nat) : List Char :=
  decChars (count_ones n) ++ [' ', 'b', 'i', 't', 's']

/-- One iteration of the cluster-counting loop of clusters_string: on a
set bit a new cluster is counted unless already inside one; a clear bit
leaves the cluster. -/
def clusterStep (n : Nat) (st : Nat × Bool) (i : Nat) : Nat × Bool :=
  if n.testBit i then (if st.2 then st else (st.1 + 1, true)) else (st.1, false)

/-- The cluster-counting loop of clusters_string in mlu.rs: a fold over
bit positions 0..16 with state (count, in_cluster), where in_cluster is
seeded with bit 15, plus the final all-set fix-up. -/
def clusters_count (n : Nat) : Nat :=
  let r := (List.range 16).foldl (clusterStep n) (0, n.testBit 15)
  if r.1 = 0 && r.2 then 1 else r.1

/-- clusters_string in mlu.rs: the cluster count followed by the word
clusters. -/
def clusters_string (n : Nat) : List Char :=
  decChars (clusters_count n) ++ [' ', 'c', 'l', 'u', 's', 't', 'e', 'r', 's']

/-- The diagnostic trailing text of a table line: wire diagram, bit count
and cluster count, comma-separated (shared by Display and parse_line). -/
def tailText (n : Nat) : List Char :=
  bit_pattern_string n ++ [',', ' '] ++ bits_string n ++ [',', ' '] ++ clusters_string n

/-- One serialized table line (the Display format string of mlu.rs). -/
def lineText (n : Nat) : List Char :=
  ['0', 'x'] ++ hex4 n ++ [' ', '1', ' '] ++ tailText n

/-- The lines of the Display output: one line per present pattern, in
ascending numeric index order (iter().enumerate().filter(...)). -/
def tableLines (t : LookupTable) : List (List Char) :=
  ((List.finRange TABLE_SIZE).filter (fun i => t.inner i)).map (fun i => lineText i.val)

/-- Vec::join with a newline separator: no trailing newline. -/
def joinNL : List (List Char) → List Char
  | [] => []
  | l :: ls => l ++ (ls.map (fun x => '\n' :: x)).flatten

/-- impl fmt::Display for LookupTable: the serialized text of a table. -/
def LookupTable.toText (t : LookupTable) : List Char := joinNL (tableLines t)

/-! ## Parsing (FromStr for LookupTable) -/

/-- The hex-digit character class accepted by winnow hex_uint. -/
def isHexDigitChar (c : Char) : Bool :=
  (('0' ≤ c) && (c ≤ '9')) || (('a' ≤ c) && (c ≤ 'f')) || (('A' ≤ c) && (c ≤ 'F'))

/-- Numeric value of one hex digit character. -/
def hexDigitVal (c : Char) : Nat :=
  if '0' ≤ c ∧ c ≤ '9' then c.toNat - 48
  else if 'a' ≤ c ∧ c ≤ 'f' then c.toNat - 87
  else c.toNat - 55

/-- Value of a string of hex digits, most significant first. -/
def hexVal (ds : List Char) : Nat := ds.foldl (fun a c => a * 16 + hexDigitVal c) 0

/-- Literal-tag parser: succeeds iff the input starts with the expected
characters, returning the rest (the winnow literal parsers). -/
def expectChars : List Char → List Char → Option (List Char)
  | [], s => some s
  | _ :: _, [] => none
  | p :: ps, c :: cs => if c = p then expectChars ps cs else none

/-- winnow hex_uint at u16: greedily takes consecutive hex digits, fails
when there are none or more than four (overflow past 16 bits). -/
def hexUint (s : List Char) : Option (Nat × List Char) :=
  let ds := s.takeWhile isHexDigitChar
  if ds.length = 0 then none
  else if 4 < ds.length then none
  else some (hexVal ds, s.dropWhile isHexDigitChar)

/-- parse_line in mlu.rs: 0x, a hex value n, the literal separator, then
the diagnostic text recomputed from n, which the input must match
exactly. -/
def parse_line (s : List Char) : Option (Nat × List Char) :=
  match expectChars ['0', 'x'] s with
  | none => none
  | some s1 =>
    match hexUint s1 with
    | none => none
    | some (n, s2) =>
      match expectChars [' ', '1', ' '] s2 with
      | none => none
      | some s3 =>
        match expectChars (tailText n) s3 with
        | none => none
        | some s4 => some (n, s4)

/-- The error type returned when parsing a LookupTable fails (ParseError
in mlu.rs: the offending position within the input). -/
structure ParseErrorAt where
  offset : Nat
deriving DecidableEq

/-- Continuation of winnow separated(0.., parse_line, newline) after the
first line: repeatedly a newline then a line, backtracking (leaving the
newline unconsumed) when no further line parses.  The fuel argument only
bounds the recursion; from_str passes the input length, which always
suffices because every iteration consumes at least one character. -/
def moreLines : Nat → List Char → (List Nat × List Char)
  | 0, s => ([], s)
  | _ + 1, [] => ([], [])
  | fuel + 1, c :: rest =>
    if c = '\n' then
      match parse_line rest with
      | some (n, rest') =>
        let r := moreLines fuel rest'
        (n :: r.1, r.2)
      | none => ([], c :: rest)
    else ([], c :: rest)

/-- winnow separated(0.., parse_line, newline): zero or more
newline-separated lines. -/
def sepLines (fuel : Nat) (s : List Char) : (List Nat × List Char) :=
  match parse_line s with
  | none => ([], s)
  | some (n, rest) =>
    let r := moreLines fuel rest
    (n :: r.1, r.2)

/-- Setting one entry of the table from a parsed line
(inner[usize::from(n)] = true in from_str). -/
def setIndex (t : LookupTable) (n : Nat) : LookupTable :=
  ⟨fun i => if i.val = n then true else t.inner i⟩

/-- The table built from the parsed line values. -/
def mkTable (ns : List Nat) : LookupTable := ns.foldl setIndex LookupTable.new

/-- impl FromStr for LookupTable: newline-separated lines, one optional
trailing newline, and the whole input must be consumed; on failure the
error reports the position where parsing stopped and no table is
returned. -/
def from_str (s : List Char) : Except ParseErrorAt LookupTable :=
  let r := sepLines s.length s
  let rest' :=
    match r.2 with
    | c :: t => if c = '\n' then t else c :: t
    | [] => []
  if rest' = [] then Except.ok (mkTable r.1)
  else Except.error ⟨s.length - rest'.length⟩

/-! ## The MLU state machine (mlu.rs) -/

/-- MluState in mlu.rs: Idle, Accumulate (gathering the OR of patterns
until stop_time) or Wait (debouncing until stop_time). -/
inductive MluState where
  | idle : MluState
  | accumulate (stop_time : Int) (cumulative : WirePattern) : MluState
  | wait (stop_time : Int) : MluState
deriving DecidableEq

/-- The Mlu struct: current state plus the immutable configuration. -/
structure Mlu where
  state : MluState
  prompt_window : Positive
  wait_gate : Positive
  table : LookupTable

/-- Mlu::new: starts Idle. -/
def Mlu.new (prompt_window wait_gate : Positive) (table : LookupTable) : Mlu :=
  ⟨MluState.idle, prompt_window, wait_gate, table⟩

/-- Mlu::process in mlu.rs: the single-step transition function, returning
the updated unit and the optional candidate signal. -/
def Mlu.process (m : Mlu) (event : WireEvent) : Mlu × Option TrgSignal :=
  match m.state with
  | MluState.accumulate stop_time cumulative =>
    if event.time < stop_time then
      ({ m with state := MluState.accumulate stop_time (WirePattern.or cumulative event.wire_pattern) }, none)
    else if event.time < stop_time + m.wait_gate.inner then
      ({ m with state := MluState.wait (event.time + m.wait_gate.inner) },
       if m.table.contains cumulative then some ⟨stop_time⟩ else none)
    else
      ({ m with state := MluState.accumulate (event.time + m.prompt_window.inner) event.wire_pattern },
       if m.table.contains cumulative then some ⟨stop_time⟩ else none)
  | MluState.wait stop_time =>
    if event.time < stop_time then
      ({ m with state := MluState.wait (event.time + m.wait_gate.inner) }, none)
    else
      ({ m with state := MluState.accumulate (event.time + m.prompt_window.inner) event.wire_pattern }, none)
  | MluState.idle =>
    ({ m with state := MluState.accumulate (event.time + m.prompt_window.inner) event.wire_pattern }, none)

/-- Feeding a whole event sequence through the MLU, pairing every event
with the optional signal its processing produced. -/
def processAll (m : Mlu) : List WireEvent → List (WireEvent × Option TrgSignal)
  | [] => []
  | e :: es =>
    let r := m.process e
    (e, r.2) :: processAll r.1 es

/-! ## The admission pipeline (lib.rs World::run) -/

/-- The observer callbacks of lib.rs, reified as trace elements. -/
inductive Callback where
  | wireEvent (event : WireEvent) : Callback
  | trgIn (signal : TrgSignal) : Callback
  | driftVeto (signal : TrgSignal) : Callback
  | scaledown (signal : TrgSignal) : Callback
  | deadTime (signal : TrgSignal) : Callback
  | trgOut (signal : TrgSignal) : Callback
deriving DecidableEq

/-- The World struct of lib.rs (without the generator and observer, which
are replaced by an explicit event list and the callback trace). -/
structure World where
  mlu : Mlu
  drift_veto : Positive
  scaledown : Nat
  dead_time : Positive
  veto_until : Option Int
  busy_until : Option Int
  counter : Nat
  prev_event : Option WireEvent

/-- World::new: fresh watermarks, zero counter, no pending event. -/
def World.new (prompt_window wait_gate : Positive) (lookup_table : LookupTable)
    (drift_veto : Positive) (scaledown : Nat) (dead_time : Positive) : World :=
  ⟨Mlu.new prompt_window wait_gate lookup_table, drift_veto, scaledown, dead_time,
   none, none, 0, none⟩

/-- The dead-time stage of World::run: a candidate at or before the busy
watermark is suppressed; otherwise it is emitted and the watermark set. -/
def World.admitDeadTime (w : World) (s : TrgSignal) : World × List Callback :=
  match w.busy_until with
  | some busy =>
    if s.time ≤ busy then (w, [Callback.deadTime s])
    else ({ w with busy_until := some (s.time + w.dead_time.inner) }, [Callback.trgOut s])
  | none => ({ w with busy_until := some (s.time + w.dead_time.inner) }, [Callback.trgOut s])

/-- The scaledown stage of World::run: below the threshold the candidate
is suppressed and the counter incremented; at the threshold the counter
resets and the candidate proceeds to the dead-time stage. -/
def World.admitScaledown (w : World) (s : TrgSignal) : World × List Callback :=
  if w.counter ≠ w.scaledown then ({ w with counter := w.counter + 1 }, [Callback.scaledown s])
  else World.admitDeadTime { w with counter := 0 } s

/-- The drift-veto stage of World::run: a candidate at or before the veto
watermark is suppressed with everything unchanged; otherwise the veto
watermark is refreshed and the candidate proceeds to scaledown. -/
def World.admitSignal (w : World) (s : TrgSignal) : World × List Callback :=
  match w.veto_until with
  | some veto =>
    if s.time ≤ veto then (w, [Callback.driftVeto s])
    else World.admitScaledown { w with veto_until := some (s.time + w.drift_veto.inner) } s
  | none => World.admitScaledown { w with veto_until := some (s.time + w.drift_veto.inner) } s

/-- The trigger-decision part of one World::run loop iteration: feed the
event to the MLU and, when a candidate results, emit on_trg_in and run
the admission cascade. -/
def World.trgStep (w : World) (e : WireEvent) : World × List Callback :=
  let r := w.mlu.process e
  let w1 := { w with mlu := r.1 }
  match r.2 with
  | none => (w1, [])
  | some s =>
    let r2 := w1.admitSignal s
    (r2.1, Callback.trgIn s :: r2.2)

/-- The World::run loop: each iteration first flushes the previous
event's on_wire_event callback, stores the current event as pending, and
runs the trigger step; after the sequence is exhausted the final pending
event is flushed. -/
def World.runAux : World → List WireEvent → List Callback
  | w, [] =>
    match w.prev_event with
    | some pe => [Callback.wireEvent pe]
    | none => []
  | w, e :: es =>
    let flush : List Callback :=
      match w.prev_event with
      | some pe => [Callback.wireEvent pe]
      | none => []
    let r := World.trgStep { w with prev_event := some e } e
    flush ++ r.2 ++ World.runAux r.1 es

/-- World::run on a merged event list: the full observer callback trace. -/
def World.run (w : World) (events : List WireEvent) : List Callback :=
  World.runAux w events

/-! ## Spec-side definitions (written from the specification text, to be
compared with the embedded code) -/

/-- The MLU transition table exactly as written in spec section 4.2, with
each row's condition spelled with the spec's inequalities. -/
def mluSpecStep (m : Mlu) (event : WireEvent) : Mlu × Option TrgSignal :=
  match m.state with
  | MluState.idle =>
    ({ m with state := MluState.accumulate (event.time + m.prompt_window.inner) event.wire_pattern }, none)
  | MluState.accumulate stop cum =>
    if stop ≤ event.time ∧ event.time < stop + m.wait_gate.inner then
      ({ m with state := MluState.wait (event.time + m.wait_gate.inner) },
       if m.table.contains cum then some ⟨stop⟩ else none)
    else if stop + m.wait_gate.inner ≤ event.time then
      ({ m with state := MluState.accumulate (event.time + m.prompt_window.inner) event.wire_pattern },
       if m.table.contains cum then some ⟨stop⟩ else none)
    else
      ({ m with state := MluState.accumulate stop (WirePattern.or cum event.wire_pattern) }, none)
  | MluState.wait stop =>
    if stop ≤ event.time then
      ({ m with state := MluState.accumulate (event.time + m.prompt_window.inner) event.wire_pattern }, none)
    else
      ({ m with state := MluState.wait (event.time + m.wait_gate.inner) }, none)

/-- The callback order stated by the spec: for each event, first every
trigger-decision callback that event causes, then its own on_wire_event
callback. -/
def specTraceAux : World → List WireEvent → List Callback
  | _, [] => []
  | w, e :: es =>
    let r := World.trgStep w e
    r.2 ++ Callback.wireEvent e :: specTraceAux r.1 es

/-- Number of contiguous runs of set bits over the circular arrangement
of the 16 bit positions (bit 15 adjacent to bit 0), as the spec words it:
each run is counted at its start, a set bit whose circular predecessor is
clear, except that the all-set pattern forms one single run. -/
def circularClusters (n : Nat) : Nat :=
  if (List.range 16).all (fun i => n.testBit i) then 1
  else (List.range 16).countP (fun i => n.testBit i && !n.testBit ((i + 15) % 16))

/-- The scaledown counter value seen by the k-th candidate that clears
drift veto (counting from 0), under the update rule of the scaledown
stage. -/
def counterAfter (sd : Nat) : Nat → Nat
  | 0 => 0
  | k + 1 => if counterAfter sd k ≠ sd then counterAfter sd k + 1 else 0

/-- A well-formed serialized table line for the value n: some non-empty
hex rendering of n of at most four digits, the literal separator, and
exactly the diagnostic text recomputed from n. -/
def LineFor (n : Nat) (cs : List Char) : Prop :=
  ∃ hx, hx ≠ [] ∧ hx.length ≤ 4 ∧ (∀ c ∈ hx, isHexDigitChar c = true) ∧
    hexVal hx = n ∧ cs = '0' :: 'x' :: (hx ++ ' ' :: '1' :: ' ' :: tailText n)

/-- Recognizer for on_trg_in trace elements. -/
def Callback.isTrgIn : Callback → Bool
  | Callback.trgIn _ => true
  | _ => false

/-- Recognizer for on_trg_drift_veto trace elements. -/
def Callback.isDriftVeto : Callback → Bool
  | Callback.driftVeto _ => true
  | _ => false

/-- Recognizer for on_trg_scaledown trace elements. -/
def Callback.isScaledown : Callback → Bool
  | Callback.scaledown _ => true
  | _ => false

/-- Recognizer for on_trg_dead_time trace elements. -/
def Callback.isDeadTime : Callback → Bool
  | Callback.deadTime _ => true
  | _ => false

/-- Recognizer for on_trg_out trace elements. -/
def Callback.isTrgOut : Callback → Bool
  | Callback.trgOut _ => true
  | _ => false

/-! ## Concrete fixtures used by witness theorems -/

/-- A positive duration of one time unit. -/
def onePos : Positive := ⟨1, by decide⟩

/-- The wire pattern with only bit 0 set. -/
def pat1 : WirePattern := ⟨1, by decide⟩

/-- The lookup table containing exactly pat1. -/
def table1 : LookupTable := (LookupTable.new.insert pat1).1

/-- A world with all windows equal to one time unit, scaledown 0 and the
table containing pat1. -/
def world0 : World := World.new onePos onePos table1 onePos 0 onePos

/-- A candidate signal at time 0. -/
def sig0 : TrgSignal := ⟨0⟩

/-- A noise wire event with pattern pat1 at the given time. -/
def ev (t : Int) : WireEvent := ⟨Source.noise, t, pat1⟩

/-! ## Theorems -/

/-- C1: Mlu::process implements exactly the six-row transition table of
spec section 4.2: from Idle any event arms accumulation with no output;
an accumulating window absorbs early events, decides (reporting the
window close time stop, and a signal iff the table contains the
accumulated pattern) when an event lands inside the wait gate, and makes
the same decision on the old pattern while re-arming when the event lands
at or past the gate; a debouncing unit re-extends on early events and
re-arms silently otherwise. -/
theorem mlu_process_implements_transition_table (m : Mlu) (e : WireEvent) :
    m.process e = mluSpecStep m e := by
  obtain ⟨st, pw, wg, tbl⟩ := m
  have hwg := wg.pos
  cases st with
  | idle => rfl
  | accumulate stop cum =>
    simp only [Mlu.process, mluSpecStep]
    split_ifs <;> first | rfl | omega
  | wait stop =>
    simp only [Mlu.process, mluSpecStep]
    split_ifs <;> first | rfl | omega


/-- C2: the two admission watermarks are independent.  A candidate at or
before the drift-veto watermark is discarded with the whole state (both
watermarks included) unchanged and only on_trg_drift_veto emitted; every
candidate that clears drift veto refreshes veto_until to its time plus
drift_veto, even when it is later suppressed; busy_until moves to the
candidate time plus dead_time exactly when on_trg_out is emitted, and a
candidate that reaches the dead-time stage at or before busy_until gets
on_trg_dead_time with busy_until unchanged. -/
theorem admission_watermarks_independent (w : World) (s : TrgSignal) :
    (∀ v, w.veto_until = some v → s.time ≤ v →
      World.admitSignal w s = (w, [Callback.driftVeto s])) ∧
    ((∀ v, w.veto_until = some v → v < s.time) →
      ((World.admitSignal w s).1.veto_until = some (s.time + w.drift_veto.inner) ∧
       (Callback.trgOut s ∈ (World.admitSignal w s).2 →
         (World.admitSignal w s).1.busy_until = some (s.time + w.dead_time.inner)) ∧
       (Callback.trgOut s ∉ (World.admitSignal w s).2 →
         (World.admitSignal w s).1.busy_until = w.busy_until) ∧
       (∀ b, w.busy_until = some b → s.time ≤ b → w.counter = w.scaledown →
         Callback.deadTime s ∈ (World.admitSignal w s).2 ∧
         (World.admitSignal w s).1.busy_until = w.busy_until))) := by
  obtain ⟨mlu, dv, sd, dt, veto, busy, cnt, prev⟩ := w
  constructor
  · rintro v hv hsv
    obtain rfl : veto = some v := hv
    simp only [World.admitSignal]
    rw [if_pos hsv]
  · intro hclear
    have hstep : World.admitSignal ⟨mlu, dv, sd, dt, veto, busy, cnt, prev⟩ s
        = World.admitScaledown ⟨mlu, dv, sd, dt, some (s.time + dv.inner), busy, cnt, prev⟩ s := by
      cases veto with
      | none => rfl
      | some v =>
        simp only [World.admitSignal]
        rw [if_neg (by have := hclear v rfl; omega)]
    rw [hstep]
    by_cases hc : cnt = sd
    · subst hc
      cases busy with
      | none =>
        refine ⟨?_, fun _ => ?_, fun habs => ?_, fun b hbb => ?_⟩
        · simp [World.admitScaledown, World.admitDeadTime]
        · simp [World.admitScaledown, World.admitDeadTime]
        · exact absurd (by simp [World.admitScaledown, World.admitDeadTime]) habs
        · cases hbb
      | some b =>
        by_cases hsb : s.time ≤ b
        · refine ⟨?_, fun hmem => ?_, fun _ => ?_, fun b' hbb hsb' hcs => ⟨?_, ?_⟩⟩
          · simp [World.admitScaledown, World.admitDeadTime, hsb]
          · simp [World.admitScaledown, World.admitDeadTime, hsb] at hmem
          · simp [World.admitScaledown, World.admitDeadTime, hsb]
          · simp [World.admitScaledown, World.admitDeadTime, hsb]
          · simp [World.admitScaledown, World.admitDeadTime, hsb]
        · refine ⟨?_, fun _ => ?_, fun habs => ?_, fun b' hbb hsb' hcs => ?_⟩
          · simp [World.admitScaledown, World.admitDeadTime, hsb]
          · simp [World.admitScaledown, World.admitDeadTime, hsb]
          · exact absurd (by simp [World.admitScaledown, World.admitDeadTime, hsb]) habs
          · obtain rfl : b = b' := by cases hbb; rfl
            exact absurd hsb' hsb
    · refine ⟨?_, fun hmem => ?_, fun _ => ?_, fun b hbb hsb hcs => absurd hcs hc⟩
      · simp [World.admitScaledown, hc]
      · simp [World.admitScaledown, hc] at hmem
      · simp [World.admitScaledown, hc]

/-- Witness for C2 at a concrete world and candidate: with a veto
watermark at time 3 a candidate at time 0 is vetoed with nothing changed,
and at the fresh world a candidate at time 0 clears drift veto and
refreshes the veto watermark. -/
theorem admission_watermarks_independent_witness :
    ({ world0 with veto_until := some 3 } : World).veto_until = some 3 ∧
    (sig0.time ≤ (3 : Int)) ∧
    World.admitSignal { world0 with veto_until := some 3 } sig0 =
      ({ world0 with veto_until := some 3 }, [Callback.driftVeto sig0]) ∧
    (World.admitSignal world0 sig0).1.veto_until = some (sig0.time + world0.drift_veto.inner) := by
  refine ⟨rfl, by decide, ?_, ?_⟩
  · exact (admission_watermarks_independent { world0 with veto_until := some 3 } sig0).1
      3 rfl (by decide)
  · exact ((admission_watermarks_independent world0 sig0).2
      (fun v hv => by simp [world0, World.new] at hv)).1

/-- C7 counterexample: at a world whose counter equals the scaledown
threshold (both 0) a candidate that clears drift veto survives the
scaledown stage, yet the emitted callback list is exactly the dead-time
stage's on_trg_out — no notification of any kind, and in particular no
on_trg_scaledown callback, is emitted at the scaledown stage, refuting
the claim that a "survived scaledown" notification is emitted. -/
theorem scaledown_no_survived_notification :
    world0.counter = world0.scaledown ∧
    (World.admitSignal world0 sig0).2 = [Callback.trgOut sig0] ∧
    Callback.scaledown sig0 ∉ (World.admitSignal world0 sig0).2 := by
  refine ⟨rfl, rfl, ?_⟩
  intro hmem
  simp [World.admitSignal, World.admitScaledown, World.admitDeadTime, world0, World.new] at hmem

/-- C7 amended: the scaledown stage counter starts at 0; while the
counter differs from the threshold the candidate is suppressed with
on_trg_scaledown and the counter incremented; at the threshold the
counter resets to 0 and the candidate proceeds to the dead-time stage
with no callback emitted at this stage.  Hence scaledown 0 lets every
drift-veto-clearing candidate proceed immediately, and with scaledown 1
exactly every other eligible candidate proceeds, the first one being
suppressed. -/
theorem scaledown_stage_behaviour :
    (∀ w s, w.counter ≠ w.scaledown →
      World.admitScaledown w s = ({ w with counter := w.counter + 1 }, [Callback.scaledown s])) ∧
    (∀ w s, w.counter = w.scaledown →
      World.admitScaledown w s = World.admitDeadTime { w with counter := 0 } s ∧
      ∀ c ∈ (World.admitScaledown w s).2, Callback.isScaledown c = false) ∧
    (∀ k, counterAfter 0 k = 0) ∧
    (∀ w s, (World.admitScaledown w s).1.counter =
      (if w.counter = w.scaledown then 0 else w.counter + 1)) ∧
    (∀ k, counterAfter 1 k = 1 ↔ k % 2 = 1) := by
  have hmod : ∀ k, counterAfter 1 k = k % 2 := by
    intro k
    induction k with
    | zero => rfl
    | succ k ih =>
      rw [counterAfter, ih]
      rcases Nat.mod_two_eq_zero_or_one k with h | h <;> simp [h] <;> omega
  refine ⟨?_, ?_, ?_, ?_, ?_⟩
  · intro w s hne
    simp [World.admitScaledown, hne]
  · intro w s heq
    obtain ⟨mlu, dv, sd, dt, veto, busy, cnt, prev⟩ := w
    obtain rfl : cnt = sd := heq
    constructor
    · simp [World.admitScaledown]
    · intro c hmem
      rw [show World.admitScaledown ⟨mlu, dv, cnt, dt, veto, busy, cnt, prev⟩ s
          = World.admitDeadTime ⟨mlu, dv, cnt, dt, veto, busy, 0, prev⟩ s from by
        simp [World.admitScaledown]] at hmem
      cases busy with
      | none =>
        simp only [World.admitDeadTime, List.mem_singleton] at hmem
        subst hmem; rfl
      | some b =>
        by_cases hsb : s.time ≤ b <;>
          simp only [World.admitDeadTime, if_pos, if_neg, hsb, if_true, if_false,
            List.mem_singleton] at hmem <;> (subst hmem; rfl)
  · intro k
    induction k with
    | zero => rfl
    | succ k ih => rw [counterAfter, ih]; simp
  · intro w s
    obtain ⟨mlu, dv, sd, dt, veto, busy, cnt, prev⟩ := w
    by_cases hc : cnt = sd
    · subst hc
      rw [if_pos rfl]
      rw [show World.admitScaledown ⟨mlu, dv, cnt, dt, veto, busy, cnt, prev⟩ s
          = World.admitDeadTime ⟨mlu, dv, cnt, dt, veto, busy, 0, prev⟩ s from by
        simp [World.admitScaledown]]
      cases busy with
      | none => rfl
      | some b => by_cases hsb : s.time ≤ b <;> simp [World.admitDeadTime, hsb]
    · rw [if_neg hc]
      simp [World.admitScaledown, hc]
  · intro k
    rw [hmod k]

/-- Witness for C7 at concrete values: a world with counter 0 and
threshold 1 suppresses the candidate via on_trg_scaledown, the threshold
case emits nothing at the stage, counterAfter 0 stays 0, and the
scaledown-1 cadence holds at the first two candidates. -/
theorem scaledown_stage_behaviour_witness :
    World.admitScaledown { world0 with scaledown := 1 } sig0 =
      ({ world0 with scaledown := 1, counter := 1 }, [Callback.scaledown sig0]) ∧
    World.admitScaledown world0 sig0 = World.admitDeadTime { world0 with counter := 0 } sig0 ∧
    counterAfter 0 5 = 0 ∧
    counterAfter 1 0 = 0 ∧ (counterAfter 1 1 = 1 ↔ 1 % 2 = 1) := by
  refine ⟨?_, ?_, ?_, ?_, ?_⟩
  · exact scaledown_stage_behaviour.1 { world0 with scaledown := 1 } sig0 (by decide)
  · exact (scaledown_stage_behaviour.2.1 world0 sig0 (by decide)).1
  · exact scaledown_stage_behaviour.2.2.1 5
  · decide
  · exact scaledown_stage_behaviour.2.2.2.2 1

/-- The dead-time stage always emits exactly one callback: a suppression
or the accepted output. -/
theorem admitDeadTime_emits_one (w : World) (s : TrgSignal) :
    ∃ c, (World.admitDeadTime w s).2 = [c] ∧
      (c = Callback.deadTime s ∨ c = Callback.trgOut s) := by
  obtain ⟨mlu, dv, sd, dt, veto, busy, cnt, prev⟩ := w
  cases busy with
  | none => exact ⟨Callback.trgOut s, rfl, Or.inr rfl⟩
  | some b =>
    by_cases hsb : s.time ≤ b
    · exact ⟨Callback.deadTime s, by simp [World.admitDeadTime, hsb], Or.inl rfl⟩
    · exact ⟨Callback.trgOut s, by simp [World.admitDeadTime, hsb], Or.inr rfl⟩

/-- The scaledown stage followed by the dead-time stage always emits
exactly one callback. -/
theorem admitScaledown_emits_one (w : World) (s : TrgSignal) :
    ∃ c, (World.admitScaledown w s).2 = [c] ∧
      (c = Callback.scaledown s ∨ c = Callback.deadTime s ∨ c = Callback.trgOut s) := by
  by_cases hc : w.counter = w.scaledown
  · have hstep : World.admitScaledown w s = World.admitDeadTime { w with counter := 0 } s := by
      simp [World.admitScaledown, hc]
    obtain ⟨c, hcs, hd⟩ := admitDeadTime_emits_one { w with counter := 0 } s
    exact ⟨c, hstep ▸ hcs, Or.inr hd⟩
  · exact ⟨Callback.scaledown s, by simp [World.admitScaledown, hc], Or.inl rfl⟩

/-- The full admission cascade always emits exactly one terminal
callback per candidate. -/
theorem admit_emits_one (w : World) (s : TrgSignal) :
    ∃ c, (World.admitSignal w s).2 = [c] ∧
      (c = Callback.driftVeto s ∨ c = Callback.scaledown s ∨ c = Callback.deadTime s ∨
        c = Callback.trgOut s) := by
  obtain ⟨mlu, dv, sd, dt, veto, busy, cnt, prev⟩ := w
  cases veto with
  | none =>
    obtain ⟨c, hcs, hd⟩ := admitScaledown_emits_one
      ⟨mlu, dv, sd, dt, some (s.time + dv.inner), busy, cnt, prev⟩ s
    exact ⟨c, hcs, Or.inr hd⟩
  | some v =>
    by_cases hsv : s.time ≤ v
    · refine ⟨Callback.driftVeto s, ?_, Or.inl rfl⟩
      simp only [World.admitSignal]
      rw [if_pos hsv]
    · obtain ⟨c, hcs, hd⟩ := admitScaledown_emits_one
        ⟨mlu, dv, sd, dt, some (s.time + dv.inner), busy, cnt, prev⟩ s
      refine ⟨c, ?_, Or.inr hd⟩
      simp only [World.admitSignal]
      rw [if_neg hsv]
      exact hcs

/-- The per-event trigger step emits either nothing or on_trg_in
followed by exactly one terminal admission callback. -/
theorem trgStep_shape (w : World) (e : WireEvent) :
    (World.trgStep w e).2 = [] ∨
    ∃ s c, (World.trgStep w e).2 = [Callback.trgIn s, c] ∧
      (c = Callback.driftVeto s ∨ c = Callback.scaledown s ∨ c = Callback.deadTime s ∨
        c = Callback.trgOut s) := by
  cases hp : (w.mlu.process e).2 with
  | none => exact Or.inl (by simp [World.trgStep, hp])
  | some s =>
    obtain ⟨c, hcs, hd⟩ := admit_emits_one { w with mlu := (w.mlu.process e).1 } s
    refine Or.inr ⟨s, c, ?_, hd⟩
    simp only [World.trgStep, hp]
    rw [hcs]

/-- C9: every candidate signal produced by the MLU during World::run
triggers exactly one on_trg_in callback followed by exactly one terminal
admission callback among on_trg_drift_veto, on_trg_scaledown,
on_trg_dead_time and on_trg_out, and the candidate that survives the
scaledown stage gets no dedicated callback there; consequently in every
trace the number of on_trg_in callbacks equals the sum of the counts of
the four terminal callbacks. -/
theorem trg_in_count_matches_terminal_callbacks :
    (∀ w s, ∃ c, (World.admitSignal w s).2 = [c] ∧
      (c = Callback.driftVeto s ∨ c = Callback.scaledown s ∨ c = Callback.deadTime s ∨
        c = Callback.trgOut s)) ∧
    (∀ w events, (World.runAux w events).countP Callback.isTrgIn =
      (World.runAux w events).countP Callback.isDriftVeto +
      (World.runAux w events).countP Callback.isScaledown +
      (World.runAux w events).countP Callback.isDeadTime +
      (World.runAux w events).countP Callback.isTrgOut) := by
  refine ⟨admit_emits_one, ?_⟩
  intro w events
  induction events generalizing w with
  | nil =>
    cases hp : w.prev_event <;>
      simp [World.runAux, hp, List.countP_cons, List.countP_nil,
        Callback.isTrgIn, Callback.isDriftVeto, Callback.isScaledown,
        Callback.isDeadTime, Callback.isTrgOut]
  | cons e es ih =>
    simp only [World.runAux]
    rcases trgStep_shape { w with prev_event := some e } e with h | ⟨s, c, h, hd⟩ <;>
      rw [h] <;>
      cases hp : w.prev_event <;>
      [skip; skip; rcases hd with rfl | rfl | rfl | rfl; rcases hd with rfl | rfl | rfl | rfl] <;>
      simp [List.countP_append, List.countP_cons, List.countP_nil, hp,
        Callback.isTrgIn, Callback.isDriftVeto, Callback.isScaledown,
        Callback.isDeadTime, Callback.isTrgOut] <;>
      rw [ih] <;> omega

/-- The dead-time stage never reads or writes the pending wire event. -/
theorem admitDeadTime_prev (w : World) (p : Option WireEvent) (s : TrgSignal) :
    World.admitDeadTime { w with prev_event := p } s =
      ({ (World.admitDeadTime w s).1 with prev_event := p }, (World.admitDeadTime w s).2) := by
  obtain ⟨mlu, dv, sd, dt, veto, busy, cnt, prev⟩ := w
  cases busy with
  | none => rfl
  | some b => by_cases hsb : s.time ≤ b <;> simp [World.admitDeadTime, hsb]

/-- The scaledown stage never reads or writes the pending wire event. -/
theorem admitScaledown_prev (w : World) (p : Option WireEvent) (s : TrgSignal) :
    World.admitScaledown { w with prev_event := p } s =
      ({ (World.admitScaledown w s).1 with prev_event := p }, (World.admitScaledown w s).2) := by
  by_cases hc : w.counter = w.scaledown
  · have h1 : World.admitScaledown { w with prev_event := p } s =
        World.admitDeadTime { w with prev_event := p, counter := 0 } s := by
      simp [World.admitScaledown, hc]
    have h2 : World.admitScaledown w s = World.admitDeadTime { w with counter := 0 } s := by
      simp [World.admitScaledown, hc]
    rw [h1, h2]
    exact admitDeadTime_prev { w with counter := 0 } p s
  · simp [World.admitScaledown, hc]

/-- The whole admission cascade never reads or writes the pending wire
event. -/
theorem admit_prev (w : World) (p : Option WireEvent) (s : TrgSignal) :
    World.admitSignal { w with prev_event := p } s =
      ({ (World.admitSignal w s).1 with prev_event := p }, (World.admitSignal w s).2) := by
  obtain ⟨mlu, dv, sd, dt, veto, busy, cnt, prev⟩ := w
  cases veto with
  | none =>
    simp only [World.admitSignal]
    exact admitScaledown_prev ⟨mlu, dv, sd, dt, some (s.time + dv.inner), busy, cnt, prev⟩ p s
  | some v =>
    by_cases hsv : s.time ≤ v
    · simp only [World.admitSignal]
      rw [if_pos hsv, if_pos hsv]
    · simp only [World.admitSignal]
      rw [if_neg hsv, if_neg hsv]
      exact admitScaledown_prev ⟨mlu, dv, sd, dt, some (s.time + dv.inner), busy, cnt, prev⟩ p s

/-- The trigger step never reads the pending wire event; it only carries
it along. -/
theorem trgStep_prev (w : World) (p : Option WireEvent) (e : WireEvent) :
    World.trgStep { w with prev_event := p } e =
      ({ (World.trgStep w e).1 with prev_event := p }, (World.trgStep w e).2) := by
  obtain ⟨mlu, dv, sd, dt, veto, busy, cnt, prev⟩ := w
  cases hp : (Mlu.process mlu e).2 with
  | none => simp [World.trgStep, hp]
  | some s =>
    simp only [World.trgStep, hp]
    exact congrArg (fun r => (r.1, Callback.trgIn s :: r.2))
      (admit_prev ⟨(Mlu.process mlu e).1, dv, sd, dt, veto, busy, cnt, prev⟩ p s)

/-- The spec-side trace does not depend on the pending wire event
either. -/
theorem specTraceAux_prev (es : List WireEvent) :
    ∀ (w : World) (p : Option WireEvent),
      specTraceAux { w with prev_event := p } es = specTraceAux w es := by
  induction es with
  | nil => intro w p; rfl
  | cons e es ih =>
    intro w p
    simp only [specTraceAux, trgStep_prev]
    rw [ih]

/-- World::runAux produces the pending flush followed by the spec-shaped
interleaving: per event, first its trigger-decision callbacks, then its
own on_wire_event. -/
theorem runAux_eq_specTrace (es : List WireEvent) :
    ∀ w : World, World.runAux w es =
      (match w.prev_event with
       | some pe => Callback.wireEvent pe :: specTraceAux w es
       | none => specTraceAux w es) := by
  induction es with
  | nil =>
    intro w
    cases hp : w.prev_event <;> simp [World.runAux, specTraceAux, hp]
  | cons e es ih =>
    intro w
    simp only [World.runAux, specTraceAux, trgStep_prev]
    rw [ih, specTraceAux_prev]
    cases hp : w.prev_event <;> simp [hp]

/-- C3: in every run from a fresh world, the observer callbacks are
emitted so that each wire event's trigger-decision callbacks (on_trg_in
and the admission outcome) come right before that event's own
on_wire_event callback, the on_wire_event callbacks appear in arrival
order, and the final pending wire event is flushed exactly once at the
end: the trace is exactly the spec-shaped interleaving. -/
theorem run_callback_order (pw wg : Positive) (tbl : LookupTable) (dv : Positive)
    (sd : Nat) (dt : Positive) (events : List WireEvent) :
    World.run (World.new pw wg tbl dv sd dt) events =
      specTraceAux (World.new pw wg tbl dv sd dt) events := by
  rw [World.run, runAux_eq_specTrace]
  rfl

/-- Invariant of the MLU over a non-decreasing event sequence: given a
lower bound t0 on the next event time, with every previously emitted
signal time at most t0 and below any armed accumulation window's close
time, every signal is emitted at or before the event that produced it
and the emitted times, prefixed by the last previous one, are strictly
increasing. -/
theorem mlu_run_invariant (es : List WireEvent) :
    ∀ (m : Mlu) (last : Option Int) (t0 : Int),
      es.Chain' (fun a b => a.time ≤ b.time) →
      (∀ e, es.head? = some e → t0 ≤ e.time) →
      (∀ l, last = some l → l ≤ t0) →
      (∀ stop cum, m.state = MluState.accumulate stop cum → ∀ l, last = some l → l < stop) →
      (∀ p ∈ processAll m es, ∀ s, p.2 = some s → s.time ≤ p.1.time) ∧
      List.Chain' (· < ·) ((last.elim [] fun l => [l]) ++
        ((processAll m es).filterMap (fun p => p.2)).map TrgSignal.time) := by
  induction es with
  | nil =>
    intro m last t0 _ _ _ _
    refine ⟨by simp [processAll], ?_⟩
    cases last <;> simp [processAll]
  | cons e es ih =>
    intro m last t0 hchain hfirst hlast hacc
    obtain ⟨hhead, htail⟩ := List.chain'_cons'.mp hchain
    have ht0e : t0 ≤ e.time := hfirst e rfl
    have hnext : ∀ e', es.head? = some e' → e.time ≤ e'.time := fun e' he' =>
      hhead e' (Option.mem_def.mpr he')
    obtain ⟨st, pw, wg, tbl⟩ := m
    cases st with
    | idle =>
      have hih := ih ⟨MluState.accumulate (e.time + pw.inner) e.wire_pattern, pw, wg, tbl⟩
        last e.time htail hnext
        (fun l hl => le_trans (hlast l hl) ht0e)
        (fun stop' cum' hst' l hl => by
          cases hst'
          have := hlast l hl
          have := pw.pos
          omega)
      refine ⟨?_, ?_⟩
      · intro p hp s hs
        simp only [processAll, Mlu.process, List.mem_cons] at hp
        rcases hp with rfl | hp
        · cases hs
        · exact hih.1 p hp s hs
      · simpa only [processAll, Mlu.process, List.filterMap_cons] using hih.2
    | wait stop =>
      by_cases h1 : e.time < stop
      · have hih := ih ⟨MluState.wait (e.time + wg.inner), pw, wg, tbl⟩
          last e.time htail hnext
          (fun l hl => le_trans (hlast l hl) ht0e)
          (fun stop' cum' hst' => by cases hst')
        refine ⟨?_, ?_⟩
        · intro p hp s hs
          simp only [processAll, Mlu.process, if_pos h1, List.mem_cons] at hp
          rcases hp with rfl | hp
          · cases hs
          · exact hih.1 p hp s hs
        · simpa only [processAll, Mlu.process, if_pos h1, List.filterMap_cons] using hih.2
      · have hih := ih ⟨MluState.accumulate (e.time + pw.inner) e.wire_pattern, pw, wg, tbl⟩
          last e.time htail hnext
          (fun l hl => le_trans (hlast l hl) ht0e)
          (fun stop' cum' hst' l hl => by
            cases hst'
            have := hlast l hl
            have := pw.pos
            omega)
        refine ⟨?_, ?_⟩
        · intro p hp s hs
          simp only [processAll, Mlu.process, if_neg h1, List.mem_cons] at hp
          rcases hp with rfl | hp
          · cases hs
          · exact hih.1 p hp s hs
        · simpa only [processAll, Mlu.process, if_neg h1, List.filterMap_cons] using hih.2
    | accumulate stop cum =>
      have hstople : ∀ l, last = some l → l < stop :=
        fun l hl => hacc stop cum rfl l hl
      by_cases h1 : e.time < stop
      · have hih := ih ⟨MluState.accumulate stop (WirePattern.or cum e.wire_pattern), pw, wg, tbl⟩
          last e.time htail hnext
          (fun l hl => le_trans (hlast l hl) ht0e)
          (fun stop' cum' hst' l hl => by
            cases hst'
            exact hstople l hl)
        refine ⟨?_, ?_⟩
        · intro p hp s hs
          simp only [processAll, Mlu.process, if_pos h1, List.mem_cons] at hp
          rcases hp with rfl | hp
          · cases hs
          · exact hih.1 p hp s hs
        · simpa only [processAll, Mlu.process, if_pos h1, List.filterMap_cons] using hih.2
      · by_cases h2 : e.time < stop + wg.inner
        · -- decision inside the wait gate: goes to the wait state
          cases hcon : LookupTable.contains tbl cum with
          | false =>
            have hih := ih ⟨MluState.wait (e.time + wg.inner), pw, wg, tbl⟩
              last e.time htail hnext
              (fun l hl => le_trans (hlast l hl) ht0e)
              (fun stop' cum' hst' => by cases hst')
            refine ⟨?_, ?_⟩
            · intro p hp s hs
              simp only [processAll, Mlu.process, if_neg h1, if_pos h2, hcon,
                List.mem_cons] at hp
              rcases hp with rfl | hp
              · cases hs
              · exact hih.1 p hp s hs
            · simpa only [processAll, Mlu.process, if_neg h1, if_pos h2, hcon,
                List.filterMap_cons] using hih.2
          | true =>
            have hih := ih ⟨MluState.wait (e.time + wg.inner), pw, wg, tbl⟩
              (some stop) e.time htail hnext
              (fun l hl => by cases hl; omega)
              (fun stop' cum' hst' => by cases hst')
            refine ⟨?_, ?_⟩
            · intro p hp s hs
              simp only [processAll, Mlu.process, if_neg h1, if_pos h2, hcon,
                List.mem_cons] at hp
              rcases hp with rfl | hp
              · cases hs; simp; omega
              · exact hih.1 p hp s hs
            · have h2chain := hih.2
              simp only [Option.elim] at h2chain
              simp only [processAll, Mlu.process, if_neg h1, if_pos h2, hcon,
                List.filterMap_cons, List.map_cons]
              cases last with
              | none => simpa using h2chain
              | some l =>
                simp only [Option.elim, List.singleton_append, List.cons_append,
                  List.nil_append] at h2chain ⊢
                exact List.chain'_cons.mpr ⟨hstople l rfl, h2chain⟩
        · -- decision past the wait gate: re-arms accumulation
          cases hcon : LookupTable.contains tbl cum with
          | false =>
            have hih := ih ⟨MluState.accumulate (e.time + pw.inner) e.wire_pattern, pw, wg, tbl⟩
              last e.time htail hnext
              (fun l hl => le_trans (hlast l hl) ht0e)
              (fun stop' cum' hst' l hl => by
                cases hst'
                have := hlast l hl
                have := pw.pos
                omega)
            refine ⟨?_, ?_⟩
            · intro p hp s hs
              simp only [processAll, Mlu.process, if_neg h1, if_neg h2, hcon,
                List.mem_cons] at hp
              rcases hp with rfl | hp
              · cases hs
              · exact hih.1 p hp s hs
            · simpa only [processAll, Mlu.process, if_neg h1, if_neg h2, hcon,
                List.filterMap_cons] using hih.2
          | true =>
            have hwg := wg.pos
            have hpw := pw.pos
            have hih := ih ⟨MluState.accumulate (e.time + pw.inner) e.wire_pattern, pw, wg, tbl⟩
              (some stop) e.time htail hnext
              (fun l hl => by cases hl; omega)
              (fun stop' cum' hst' l hl => by
                cases hst'
                cases hl
                omega)
            refine ⟨?_, ?_⟩
            · intro p hp s hs
              simp only [processAll, Mlu.process, if_neg h1, if_neg h2, hcon,
                List.mem_cons] at hp
              rcases hp with rfl | hp
              · cases hs; simp; omega
              · exact hih.1 p hp s hs
            · have h2chain := hih.2
              simp only [Option.elim] at h2chain
              simp only [processAll, Mlu.process, if_neg h1, if_neg h2, hcon,
                List.filterMap_cons, List.map_cons]
              cases last with
              | none => simpa using h2chain
              | some l =>
                simp only [Option.elim, List.singleton_append, List.cons_append,
                  List.nil_append] at h2chain ⊢
                exact List.chain'_cons.mpr ⟨hstople l rfl, h2chain⟩

/-- C10: feeding any non-decreasing event sequence to a fresh MLU with
positive prompt window and wait gate, the emitted signal times are
strictly increasing, and every emitted signal's time is at most the time
of the event whose processing emitted it. -/
theorem mlu_signal_times_monotone (pw wg : Positive) (tbl : LookupTable)
    (es : List WireEvent) (h : es.Chain' (fun a b => a.time ≤ b.time)) :
    List.Pairwise (· < ·)
      (((processAll (Mlu.new pw wg tbl) es).filterMap (fun p => p.2)).map TrgSignal.time) ∧
    ∀ p ∈ processAll (Mlu.new pw wg tbl) es, ∀ s, p.2 = some s → s.time ≤ p.1.time := by
  have hinv := mlu_run_invariant es (Mlu.new pw wg tbl) none
    (es.head?.elim 0 (fun e => e.time)) h
    (fun e he => by rw [he]; exact le_refl _)
    (fun l hl => by cases hl)
    (fun stop cum hst => by cases hst)
  refine ⟨?_, hinv.1⟩
  have hchain := hinv.2
  simp only [Option.elim, List.nil_append] at hchain
  exact List.chain'_iff_pairwise.mp hchain

/-- Witness for C10: a concrete non-decreasing event sequence through a
concrete MLU, with the hypothesis checked by computation. -/
theorem mlu_signal_times_monotone_witness :
    ([ev 0, ev 2, ev 4].Chain' (fun a b => a.time ≤ b.time)) ∧
    (List.Pairwise (· < ·)
      (((processAll (Mlu.new onePos onePos table1) [ev 0, ev 2, ev 4]).filterMap
        (fun p => p.2)).map TrgSignal.time) ∧
    ∀ p ∈ processAll (Mlu.new onePos onePos table1) [ev 0, ev 2, ev 4],
      ∀ s, p.2 = some s → s.time ≤ p.1.time) := by
  have hch : [ev 0, ev 2, ev 4].Chain' (fun a b => a.time ≤ b.time) := by
    norm_num [List.chain'_cons, List.chain'_singleton, ev]
  exact ⟨hch, mlu_signal_times_monotone onePos onePos table1 [ev 0, ev 2, ev 4] hch⟩

/-- Bit j of the reversal of the low k bits of n is bit (k - 1 - j) of n. -/
theorem revBitsAux_testBit : ∀ (k j n : Nat), j < k →
    (revBitsAux k n).testBit j = n.testBit (k - 1 - j) := by
  intro k
  induction k with
  | zero => intro j n h; omega
  | succ k ih =>
    intro j n h
    cases j with
    | zero =>
      rw [revBitsAux, Nat.testBit_bit_zero]
      simp
    | succ j =>
      rw [revBitsAux, Nat.testBit_bit_succ, ih j n (by omega)]
      congr 1
      omega

/-- C5 counterexample: for the pattern 1, the character at position 0 of
the wire diagram is an X although bit 15 of the pattern is clear, so the
diagram does not render bit (15 - i) at position i. -/
theorem bit_pattern_string_not_msb_first :
    ¬(((bit_pattern_string 1).getD 0 '.') = 'X' ↔ Nat.testBit 1 15) := by
  decide

/-- C5 amended: the wire diagram renders bit 0 through bit 15 left to
right; for every pattern the diagram is exactly the map over positions
0..15 printing X for a set bit i and a dot for a clear one. -/
theorem bit_pattern_string_renders_lsb_first (n : Nat) :
    bit_pattern_string n =
      (List.range 16).map (fun i => if n.testBit i then 'X' else '.') := by
  unfold bit_pattern_string bin16 reverse_bits
  rw [List.map_map]
  refine List.map_congr_left ?_
  intro i hi
  have hi16 : i < 16 := List.mem_range.mp hi
  have hbit := revBitsAux_testBit 16 (15 - i) n (by omega)
  rw [show 16 - 1 - (15 - i) = i by omega] at hbit
  simp only [Function.comp_apply, hbit]
  cases n.testBit i <;> simp

/-- The cluster fold over the first k bit positions counts exactly the
circular run starts seen so far, and its flag records the most recently
examined bit (bit 15 before the first step). -/
theorem clusters_fold (n : Nat) : ∀ k, k ≤ 16 →
    (List.range k).foldl (clusterStep n) (0, n.testBit 15) =
      ((List.range k).countP (fun i => n.testBit i && !n.testBit ((i + 15) % 16)),
       if k = 0 then n.testBit 15 else n.testBit (k - 1)) := by
  intro k
  induction k with
  | zero => intro _; simp
  | succ k ih =>
    intro hk
    rw [List.range_succ, List.foldl_append, List.countP_append, ih (by omega)]
    have hflag : (if k = 0 then n.testBit 15 else n.testBit (k - 1)) =
        n.testBit ((k + 15) % 16) := by
      rcases Nat.eq_zero_or_pos k with rfl | hkpos
      · simp
      · rw [if_neg (by omega)]
        congr 1
        omega
    rw [hflag]
    cases hb : n.testBit k <;> cases hf : n.testBit ((k + 15) % 16) <;>
      simp [clusterStep, hb, hf]

/-- C6: the cluster count written in every serialized line equals the
number of contiguous runs of set bits over the circular arrangement of
the 16 bit positions (bit 15 adjacent to bit 0): a run wrapping from bit
15 to bit 0 counts once, the all-zero pattern has 0 clusters and the
all-set pattern exactly 1. -/
theorem clusters_count_is_circular_runs :
    (∀ n, clusters_count n = circularClusters n) ∧
    clusters_count 0 = 0 ∧ clusters_count 65535 = 1 := by
  refine ⟨?_, by decide, by decide⟩
  intro n
  unfold clusters_count circularClusters
  rw [clusters_fold n 16 le_rfl]
  dsimp only
  rw [show (if (16 : Nat) = 0 then n.testBit 15 else n.testBit (16 - 1)) = n.testBit 15
    from by norm_num]
  by_cases hall : ((List.range 16).all (fun i => n.testBit i)) = true
  · rw [if_pos hall]
    have hbit : ∀ i, i < 16 → n.testBit i = true := by
      intro i hi
      exact List.all_eq_true.mp hall i (List.mem_range.mpr hi)
    have hc : (List.range 16).countP
        (fun i => n.testBit i && !n.testBit ((i + 15) % 16)) = 0 := by
      rw [List.countP_eq_zero]
      intro i hi
      have hi16 := List.mem_range.mp hi
      simp [hbit i hi16, hbit ((i + 15) % 16) (by omega)]
    rw [hc]
    simp [hbit 15 (by omega)]
  · rw [if_neg hall]
    cases hcond : (decide ((List.range 16).countP
        (fun i => n.testBit i && !n.testBit ((i + 15) % 16)) = 0) && n.testBit 15) with
    | false =>
      rw [if_neg (by simp)]
    | true =>
      exfalso
      obtain ⟨hc0', hb15⟩ : ((List.range 16).countP
          (fun i => n.testBit i && !n.testBit ((i + 15) % 16)) = 0) ∧
          n.testBit 15 = true := by simpa using hcond
      have hstep : ∀ i, i < 16 → n.testBit i = true → n.testBit ((i + 15) % 16) = true := by
        intro i hi hbi
        have hnp := List.countP_eq_zero.mp hc0' i (List.mem_range.mpr hi)
        simp only [hbi, Bool.true_and, Bool.not_eq_true', Bool.not_not] at hnp
        simpa using hnp
      have hdesc : ∀ d, d < 16 → n.testBit (15 - d) = true := by
        intro d
        induction d with
        | zero => intro _; exact hb15
        | succ d ihd =>
          intro hd
          have hprev := ihd (by omega)
          have hnextbit := hstep (15 - d) (by omega) hprev
          rw [show (15 - d + 15) % 16 = 15 - (d + 1) by omega] at hnextbit
          exact hnextbit
      apply hall
      rw [List.all_eq_true]
      intro i hi
      have hi16 := List.mem_range.mp hi
      have hfin := hdesc (15 - i) (by omega)
      rw [show 15 - (15 - i) = i by omega] at hfin
      exact hfin

/-! ## Parsing lemmas for the round-trip and soundness theorems -/

/-- The value of the hex character of a digit is the digit. -/
theorem hexDigitVal_hexChar_fin : ∀ d : Fin 16, hexDigitVal (hexChar d.val) = d.val := by
  decide

/-- Hex characters of digits are in the hex character class. -/
theorem isHex_hexChar_fin : ∀ d : Fin 16, isHexDigitChar (hexChar d.val) = true := by
  decide

/-- The value of the four-digit hex rendering of a 16-bit value is the
value itself. -/
theorem hexVal_hex4 (n : Nat) (h : n < TABLE_SIZE) : hexVal (hex4 n) = n := by
  have h1 := hexDigitVal_hexChar_fin ⟨n / 4096 % 16, Nat.mod_lt _ (by omega)⟩
  have h2 := hexDigitVal_hexChar_fin ⟨n / 256 % 16, Nat.mod_lt _ (by omega)⟩
  have h3 := hexDigitVal_hexChar_fin ⟨n / 16 % 16, Nat.mod_lt _ (by omega)⟩
  have h4 := hexDigitVal_hexChar_fin ⟨n % 16, Nat.mod_lt _ (by omega)⟩
  simp only [hex4, hexVal, List.foldl_cons, List.foldl_nil] at *
  rw [h1, h2, h3, h4]
  have hts : n < 2 ^ 16 := h
  omega

/-- Matching an expected prefix against that prefix followed by anything
succeeds and returns the rest. -/
theorem expectChars_append : ∀ (p r : List Char), expectChars p (p ++ r) = some r := by
  intro p
  induction p with
  | nil => intro r; rfl
  | cons c cs ih =>
    intro r
    simp [expectChars, ih]

/-- A successful prefix match decomposes the input. -/
theorem expectChars_some : ∀ (p s r : List Char), expectChars p s = some r → s = p ++ r := by
  intro p
  induction p with
  | nil =>
    intro s r h
    cases h
    rfl
  | cons c cs ih =>
    intro s r h
    cases s with
    | nil => cases h
    | cons x xs =>
      simp only [expectChars] at h
      by_cases hx : x = c
      · rw [if_pos hx] at h
        subst hx
        rw [List.cons_append]
        rw [ih xs r h]
      · rw [if_neg hx] at h
        cases h

/-- takeWhile and dropWhile on a satisfying block followed by a failing
character. -/
theorem takeWhile_block {p : Char → Bool} : ∀ (ds : List Char) (c : Char) (r : List Char),
    (∀ x ∈ ds, p x = true) → p c = false →
    (ds ++ c :: r).takeWhile p = ds ∧ (ds ++ c :: r).dropWhile p = c :: r := by
  intro ds
  induction ds with
  | nil =>
    intro c r _ hc
    constructor
    · simp [List.takeWhile, hc]
    · simp [List.dropWhile, hc]
  | cons d ds ih =>
    intro c r hall hc
    have hd : p d = true := hall d (List.mem_cons_self d ds)
    have := ih c r (fun x hx => hall x (List.mem_cons_of_mem d hx)) hc
    constructor
    · simp [List.takeWhile, hd, this.1]
    · simp [List.dropWhile, hd, this.2]

/-- hex_uint on the four-digit rendering of a 16-bit value followed by a
space consumes exactly the four digits. -/
theorem hexUint_hex4 (n : Nat) (h : n < TABLE_SIZE) (r : List Char) :
    hexUint (hex4 n ++ ' ' :: r) = some (n, ' ' :: r) := by
  have hall : ∀ x ∈ hex4 n, isHexDigitChar x = true := by
    intro x hx
    simp only [hex4, List.mem_cons, List.not_mem_nil, or_false] at hx
    rcases hx with rfl | rfl | rfl | rfl
    · exact isHex_hexChar_fin ⟨n / 4096 % 16, Nat.mod_lt _ (by omega)⟩
    · exact isHex_hexChar_fin ⟨n / 256 % 16, Nat.mod_lt _ (by omega)⟩
    · exact isHex_hexChar_fin ⟨n / 16 % 16, Nat.mod_lt _ (by omega)⟩
    · exact isHex_hexChar_fin ⟨n % 16, Nat.mod_lt _ (by omega)⟩
  have hsp : isHexDigitChar ' ' = false := by decide
  obtain ⟨htake, hdrop⟩ := takeWhile_block (hex4 n) ' ' r hall hsp
  rw [hexUint, htake, hdrop]
  have hlen : (hex4 n).length = 4 := rfl
  rw [hlen]
  norm_num
  exact hexVal_hex4 n h

/-- parse_line accepts a serialized line followed by anything, returning
the line's value and the rest. -/
theorem parse_line_lineText (n : Nat) (h : n < TABLE_SIZE) (r : List Char) :
    parse_line (lineText n ++ r) = some (n, r) := by
  have hsplit : lineText n ++ r =
      ['0', 'x'] ++ (hex4 n ++ ' ' :: ('1' :: ' ' :: (tailText n ++ r))) := by
    simp [lineText, List.append_assoc]
  have hmid : expectChars [' ', '1', ' '] (' ' :: '1' :: ' ' :: (tailText n ++ r)) =
      some (tailText n ++ r) := expectChars_append [' ', '1', ' '] (tailText n ++ r)
  rw [hsplit, parse_line]
  simp only [expectChars_append, hexUint_hex4 n h, hmid]

/-- moreLines consumes a flattened sequence of newline-prefixed
serialized lines entirely, returning their values, provided the fuel
covers the number of lines. -/
theorem moreLines_flatten : ∀ (ns : List Nat) (fuel : Nat),
    (∀ n ∈ ns, n < TABLE_SIZE) → ns.length ≤ fuel →
    moreLines fuel ((ns.map (fun n => '\n' :: lineText n)).flatten) = (ns, []) := by
  intro ns
  induction ns with
  | nil =>
    intro fuel _ _
    cases fuel <;> rfl
  | cons n ns ih =>
    intro fuel hbound hfuel
    cases fuel with
    | zero => simp at hfuel
    | succ fuel =>
      have hn : n < TABLE_SIZE := hbound n (List.mem_cons_self n ns)
      have hns : ∀ m ∈ ns, m < TABLE_SIZE := fun m hm => hbound m (List.mem_cons_of_mem n hm)
      have hlen : ns.length ≤ fuel := by
        simp only [List.length_cons] at hfuel
        omega
      simp only [List.map_cons, List.flatten_cons, List.cons_append]
      rw [moreLines, if_pos rfl]
      simp only [parse_line_lineText n hn, ih fuel hns hlen]

/-- sepLines consumes a whole newline-joined list of serialized lines,
returning their values, provided the fuel covers the number of
continuation lines. -/
theorem sepLines_join (ids : List Nat) (fuel : Nat)
    (hbound : ∀ n ∈ ids, n < TABLE_SIZE) (hfuel : ids.length - 1 ≤ fuel) :
    sepLines fuel (joinNL (ids.map lineText)) = (ids, []) := by
  cases ids with
  | nil =>
    rfl
  | cons n ns =>
    have hn : n < TABLE_SIZE := hbound n (List.mem_cons_self n ns)
    have hns : ∀ m ∈ ns, m < TABLE_SIZE := fun m hm => hbound m (List.mem_cons_of_mem n hm)
    have hflat : (ns.map lineText).map (fun x => '\n' :: x) =
        ns.map (fun m => '\n' :: lineText m) := by
      rw [List.map_map]
      rfl
    simp only [List.map_cons, joinNL, hflat]
    have hmore := moreLines_flatten ns fuel hns (by
      simp only [List.length_cons] at hfuel
      omega)
    rw [sepLines, parse_line_lineText n hn]
    simp only [hmore]

/-- Each newline-prefixed block contributes at least one character, so the
flattened continuation is at least as long as the number of lines. -/
theorem flatten_newline_length (l : List Nat) :
    l.length ≤ ((l.map (fun m => '\n' :: lineText m)).flatten).length := by
  induction l with
  | nil => simp
  | cons n ns ih =>
    simp only [List.map_cons, List.flatten_cons, List.length_append, List.length_cons]
    omega


/-- Membership in the table built by the parser's per-line updates. -/
theorem mkTable_foldl_inner (ns : List Nat) : ∀ (t : LookupTable) (i : Fin TABLE_SIZE),
    (ns.foldl setIndex t).inner i = (t.inner i || decide (i.val ∈ ns)) := by
  induction ns with
  | nil =>
    intro t i
    simp
  | cons n ns ih =>
    intro t i
    rw [List.foldl_cons, ih (setIndex t n) i]
    show ((if i.val = n then true else t.inner i) || decide (i.val ∈ ns)) =
      (t.inner i || decide (i.val ∈ n :: ns))
    by_cases hi : i.val = n
    · rw [if_pos hi]
      have : i.val ∈ n :: ns := by rw [hi]; exact List.mem_cons_self n ns
      rw [decide_eq_true this]
      simp
    · rw [if_neg hi]
      have : (i.val ∈ n :: ns) ↔ (i.val ∈ ns) := by
        rw [List.mem_cons]
        exact or_iff_right hi
      rw [show decide (i.val ∈ n :: ns) = decide (i.val ∈ ns) from by
        exact decide_eq_decide.mpr this]

/-- The parser's table for a list of values contains exactly those
values. -/
theorem mkTable_inner (ns : List Nat) (i : Fin TABLE_SIZE) :
    (mkTable ns).inner i = decide (i.val ∈ ns) := by
  rw [mkTable, mkTable_foldl_inner ns LookupTable.new i]
  show (false || decide (i.val ∈ ns)) = decide (i.val ∈ ns)
  rw [Bool.false_or]

/-- Two lookup tables with the same entries are equal. -/
theorem lookupTable_ext (t1 t2 : LookupTable)
    (h : ∀ i, t1.inner i = t2.inner i) : t1 = t2 := by
  cases t1
  cases t2
  exact congrArg LookupTable.mk (funext h)

/-- Rebuilding a table from its own serialized indices gives the table
back. -/
theorem mkTable_tableIndices (t : LookupTable) :
    mkTable (((List.finRange TABLE_SIZE).filter (fun i => t.inner i)).map Fin.val) = t := by
  refine lookupTable_ext _ t fun i => ?_
  rw [mkTable_inner]
  cases hf : t.inner i with
  | true =>
    have hmem : i.val ∈ ((List.finRange TABLE_SIZE).filter
        (fun j => t.inner j)).map Fin.val :=
      List.mem_map.mpr ⟨i, List.mem_filter.mpr ⟨List.mem_finRange i, hf⟩, rfl⟩
    exact decide_eq_true hmem
  | false =>
    have hnmem : i.val ∉ ((List.finRange TABLE_SIZE).filter
        (fun j => t.inner j)).map Fin.val := by
      intro hmem
      obtain ⟨j, hj, hji⟩ := List.mem_map.mp hmem
      obtain ⟨_, hjin⟩ := List.mem_filter.mp hj
      have hj' : j = i := Fin.val_injective hji
      subst hj'
      rw [hf] at hjin
      cases hjin
    exact decide_eq_false hnmem

/-- Unfolding of from_str at a fully consumed line split. -/
theorem from_str_of_sepLines (s : List Char) (ns : List Nat)
    (h : sepLines s.length s = (ns, [])) : from_str s = Except.ok (mkTable ns) := by
  unfold from_str
  rw [h]
  rfl

/-- C4: the LookupTable text format round-trips exactly: parsing the
serialized text of any table yields the table back, and re-serializing
the parse result of any serialized text reproduces that text character
for character. -/
theorem lookup_table_text_roundtrip (t : LookupTable) :
    from_str (LookupTable.toText t) = Except.ok t ∧
    (from_str (LookupTable.toText t)).map LookupTable.toText =
      Except.ok (LookupTable.toText t) := by
  have hids : ∀ n ∈ ((List.finRange TABLE_SIZE).filter (fun i => t.inner i)).map Fin.val,
      n < TABLE_SIZE := by
    intro n hn
    obtain ⟨j, _, hji⟩ := List.mem_map.mp hn
    rw [← hji]
    exact j.isLt
  have htext : LookupTable.toText t =
      joinNL ((((List.finRange TABLE_SIZE).filter (fun i => t.inner i)).map Fin.val).map
        lineText) := by
    rw [LookupTable.toText, tableLines, List.map_map]
    rfl
  have hfuel : (((List.finRange TABLE_SIZE).filter (fun i => t.inner i)).map Fin.val).length
      - 1 ≤ (joinNL ((((List.finRange TABLE_SIZE).filter
          (fun i => t.inner i)).map Fin.val).map lineText)).length := by
    cases hc : ((List.finRange TABLE_SIZE).filter (fun i => t.inner i)).map Fin.val with
    | nil => exact Nat.zero_le _
    | cons n ns =>
      have hlb := flatten_newline_length ns
      have hmapped : (ns.map lineText).map (fun x => '\n' :: x) =
          ns.map (fun m => '\n' :: lineText m) := by
        rw [List.map_map]
        rfl
      simp only [List.map_cons, joinNL, hmapped, List.length_append, List.length_cons]
      omega
  have hsep : sepLines (LookupTable.toText t).length (LookupTable.toText t) =
      (((List.finRange TABLE_SIZE).filter (fun i => t.inner i)).map Fin.val, []) := by
    rw [htext]
    exact sepLines_join _ _ hids hfuel
  have hok : from_str (LookupTable.toText t) = Except.ok t := by
    rw [from_str_of_sepLines _ _ hsep, mkTable_tableIndices]
  exact ⟨hok, by rw [hok]; rfl⟩

/-- A successful hex_uint decomposes the input into a non-empty block of
at most four hex digits carrying the value, followed by the rest. -/
theorem hexUint_some (s : List Char) (n : Nat) (r : List Char)
    (h : hexUint s = some (n, r)) :
    ∃ ds, s = ds ++ r ∧ ds ≠ [] ∧ ds.length ≤ 4 ∧
      (∀ c ∈ ds, isHexDigitChar c = true) ∧ hexVal ds = n := by
  rw [hexUint] at h
  by_cases h0 : (s.takeWhile isHexDigitChar).length = 0
  · rw [if_pos h0] at h
    cases h
  · rw [if_neg h0] at h
    by_cases h4 : 4 < (s.takeWhile isHexDigitChar).length
    · rw [if_pos h4] at h
      cases h
    · rw [if_neg h4] at h
      obtain ⟨hv, hr⟩ : hexVal (s.takeWhile isHexDigitChar) = n ∧
          s.dropWhile isHexDigitChar = r := by
        cases h
        exact ⟨rfl, rfl⟩
      refine ⟨s.takeWhile isHexDigitChar, ?_, ?_, by omega, ?_, hv⟩
      · rw [← hr, List.takeWhile_append_dropWhile]
      · intro habs
        rw [habs] at h0
        exact h0 rfl
      · intro c hc
        exact List.mem_takeWhile_imp hc

/-- A successful parse_line decomposes the input into a well-formed
serialized line for the returned value, followed by the rest. -/
theorem parse_line_some (s : List Char) (n : Nat) (r : List Char)
    (h : parse_line s = some (n, r)) :
    ∃ lc, LineFor n lc ∧ s = lc ++ r := by
  rw [parse_line] at h
  cases h1 : expectChars ['0', 'x'] s with
  | none => simp only [h1] at h; cases h
  | some s1 =>
    simp only [h1] at h
    cases h2 : hexUint s1 with
    | none => simp only [h2] at h; cases h
    | some nv =>
      obtain ⟨m, s2⟩ := nv
      simp only [h2] at h
      cases h3 : expectChars [' ', '1', ' '] s2 with
      | none => simp only [h3] at h; cases h
      | some s3 =>
        simp only [h3] at h
        cases h4 : expectChars (tailText m) s3 with
        | none => simp only [h4] at h; cases h
        | some s4 =>
          simp only [h4] at h
          obtain ⟨hm, hr⟩ : m = n ∧ s4 = r := by
            cases h
            exact ⟨rfl, rfl⟩
          subst hm
          subst hr
          obtain ⟨ds, hds, hne, hlen, hhex, hval⟩ := hexUint_some s1 m s2 h2
          refine ⟨'0' :: 'x' :: (ds ++ ' ' :: '1' :: ' ' :: tailText m),
            ⟨ds, hne, hlen, hhex, hval, rfl⟩, ?_⟩
          rw [expectChars_some _ _ _ h1, hds, expectChars_some _ _ _ h3,
            expectChars_some _ _ _ h4]
          simp [List.append_assoc]

/-- Everything moreLines consumes is a sequence of newline-prefixed
well-formed serialized lines carrying the returned values. -/
theorem moreLines_sound : ∀ (fuel : Nat) (s : List Char) (ns : List Nat) (rest : List Char),
    moreLines fuel s = (ns, rest) →
    ∃ lines, List.Forall₂ LineFor ns lines ∧
      s = ((lines.map (fun l => '\n' :: l)).flatten) ++ rest := by
  intro fuel
  induction fuel with
  | zero =>
    intro s ns rest h
    rw [moreLines] at h
    cases h
    exact ⟨[], List.Forall₂.nil, rfl⟩
  | succ fuel ih =>
    intro s ns rest h
    cases s with
    | nil =>
      rw [moreLines] at h
      cases h
      exact ⟨[], List.Forall₂.nil, rfl⟩
    | cons c cs =>
      rw [moreLines] at h
      by_cases hc : c = '\n'
      · rw [if_pos hc] at h
        subst hc
        cases hpl : parse_line cs with
        | none =>
          simp only [hpl] at h
          cases h
          exact ⟨[], List.Forall₂.nil, rfl⟩
        | some v =>
          obtain ⟨n, rest'⟩ := v
          simp only [hpl] at h
          rcases hml : moreLines fuel rest' with ⟨ns', rest''⟩
          rw [hml] at h
          cases h
          obtain ⟨lines', hfa, hs⟩ := ih rest' ns' rest'' hml
          obtain ⟨lc, hlf, hdec⟩ := parse_line_some cs n rest' hpl
          refine ⟨lc :: lines', List.Forall₂.cons hlf hfa, ?_⟩
          rw [List.map_cons, List.flatten_cons, hdec, hs]
          simp [List.append_assoc]
      · rw [if_neg hc] at h
        cases h
        exact ⟨[], List.Forall₂.nil, rfl⟩

/-- Everything sepLines consumes is a newline-joined sequence of
well-formed serialized lines carrying the returned values. -/
theorem sepLines_sound (fuel : Nat) (s : List Char) (ns : List Nat) (rest : List Char)
    (h : sepLines fuel s = (ns, rest)) :
    ∃ lines, List.Forall₂ LineFor ns lines ∧ s = joinNL lines ++ rest := by
  rw [sepLines] at h
  split at h
  · cases h
    exact ⟨[], List.Forall₂.nil, rfl⟩
  · rename_i n rest0 hpl
    rcases hml : moreLines fuel rest0 with ⟨ns', rest''⟩
    rw [hml] at h
    cases h
    obtain ⟨lines', hfa, hs⟩ := moreLines_sound fuel rest0 ns' rest'' hml
    obtain ⟨lc, hlf, hdec⟩ := parse_line_some s n rest0 hpl
    refine ⟨lc :: lines', List.Forall₂.cons hlf hfa, ?_⟩
    rw [joinNL, hdec, hs]
    simp [List.append_assoc]

/-- C8: LookupTable parsing is self-validating and all-or-nothing: a
successful parse means the whole input is a newline-joined sequence of
lines (with one optional trailing newline), each consisting of a hex
value followed by exactly the diagnostic text recomputed from that
value, and the resulting table holds exactly the parsed hex values; any
input not of this shape yields an error carrying the offending
position, and no table. -/
theorem from_str_self_validating (s : List Char) (t : LookupTable)
    (h : from_str s = Except.ok t) :
    ∃ ns lines, List.Forall₂ LineFor ns lines ∧
      (s = joinNL lines ∨ s = joinNL lines ++ ['\n']) ∧ t = mkTable ns := by
  rw [from_str] at h
  rcases hsep : sepLines s.length s with ⟨ns0, fin⟩
  rw [hsep] at h
  obtain ⟨lines, hfa, hs⟩ := sepLines_sound s.length s ns0 fin hsep
  cases fin with
  | nil =>
    dsimp only at h
    rw [if_pos rfl] at h
    cases h
    exact ⟨ns0, lines, hfa, Or.inl (by rw [hs, List.append_nil]), rfl⟩
  | cons c u =>
    dsimp only at h
    by_cases hc : c = '\n'
    · rw [if_pos hc] at h
      subst hc
      cases u with
      | nil =>
        rw [if_pos rfl] at h
        cases h
        exact ⟨ns0, lines, hfa, Or.inr hs, rfl⟩
      | cons d v =>
        rw [if_neg (by simp)] at h
        cases h
    · rw [if_neg hc, if_neg (by simp)] at h
      cases h

/-- Witness for C8 at a concrete input: the single serialized line for
the value 3 parses successfully and decomposes as one well-formed line
whose table holds exactly 3. -/
theorem from_str_self_validating_witness :
    from_str (lineText 3) = Except.ok (mkTable [3]) ∧
    ∃ ns lines, List.Forall₂ LineFor ns lines ∧
      (lineText 3 = joinNL lines ∨ lineText 3 = joinNL lines ++ ['\n']) ∧
      mkTable [3] = mkTable ns := by
  have hok : from_str (lineText 3) = Except.ok (mkTable [3]) := by
    have hsep : sepLines (lineText 3).length (lineText 3) = ([3], []) := by
      have h3 : (3 : Nat) < TABLE_SIZE := by norm_num [TABLE_SIZE]
      have hpl := parse_line_lineText 3 h3 []
      rw [List.append_nil] at hpl
      have hm : moreLines (lineText 3).length [] = ([], []) := by
        cases hl : (lineText 3).length with
        | zero => rfl
        | succ k => rfl
      rw [sepLines]
      simp only [hpl, hm]
    exact from_str_of_sepLines _ _ hsep
  exact ⟨hok, from_str_self_validating (lineText 3) (mkTable [3]) hok⟩
